import Mathlib

/-!
# mini_db: a line-oriented key-value server

A shallow embedding of `src/mini_db/main.cpp`.

* A C++ `char` is a `Char` and a `std::string` a list of them (`Str`).  The
  code tells apart only NUL, the newline and the six whitespace characters of
  the classic locale; of the other characters only their identity and, for
  the order of keys, their code matter.
* A `std::map` is the list of its entries in iteration order (`StdMap`).
* `Server` holds the two maps of the class and the interest set of the epoll
  instance the class owns through `epollFd_`.
* `exit_with_error` is the `Except.error` outcome, carrying the cause string.
* The results of successive `recv` calls on a socket are a script
  (`List RecvResult`); the calls of `send` are returned as a list.
* Loops are functions by well-founded recursion, so each is total; lemmas
  rewrite them to structurally recursive spec-side functions.
* Socket setup, `accept` and `epoll_wait` are outside the embedding.
-/

namespace MiniDb

set_option linter.unusedVariables false
set_option linter.unusedSectionVars false

/-- Contents of a `std::string` or of a `char` buffer. -/
abbrev Str := List Char

/-! ## `std::map` -/

/-- Entries of a `std::map<K, V>` in iteration order. -/
abbrev StdMap (K V : Type) := List (K × V)

namespace StdMap

variable {K V : Type} [DecidableEq K]

/-- Value stored under `k`, if any (`std::map::find`). -/
def find : StdMap K V → K → Option V
  | [], _ => none
  | (k', v) :: m, k => if k' = k then some v else find m k

/-- Number of entries with key `k` (`std::map::count`). -/
def count (m : StdMap K V) (k : K) : Nat :=
  m.countP (fun e => e.1 = k)

/-- The statement `m[k] = v`: overwrite the entry of `k`, or insert a new
entry at its place in key order `lt`. -/
def assign (lt : K → K → Bool) : StdMap K V → K → V → StdMap K V
  | [], k, v => [(k, v)]
  | (k', v') :: m, k, v =>
    if k = k' then (k, v) :: m
    else if lt k k' then (k, v) :: (k', v') :: m
    else (k', v') :: assign lt m k v

/-- The expression `m[k]`: the value under `k`, after inserting the default
value `dflt` when `k` is absent.  Returns the map after that insertion too. -/
def subscript (lt : K → K → Bool) (dflt : V) (m : StdMap K V) (k : K) : StdMap K V × V :=
  match find m k with
  | some v => (m, v)
  | none => (assign lt m k dflt, dflt)

/-- The map after `m.erase(k)`. -/
def erase (m : StdMap K V) (k : K) : StdMap K V :=
  m.filter (fun e => e.1 ≠ k)

/-- The value `m.erase(k)` returns: the number of entries removed. -/
def erase_count (m : StdMap K V) (k : K) : Nat :=
  m.length - (erase m k).length

/-- Strictly increasing keys: the ordering invariant of a `std::map`. -/
def Sorted (lt : K → K → Bool) (m : StdMap K V) : Prop :=
  (m.map Prod.fst).Pairwise (fun a b => lt a b = true)

end StdMap

/-- Comparison `a < b` of two `std::string`s: lexicographic on characters. -/
def strLt : Str → Str → Bool
  | [], [] => false
  | [], _ :: _ => true
  | _ :: _, [] => false
  | a :: as, b :: bs => if a < b then true else if b < a then false else strLt as bs

/-- Comparison `a < b` of two descriptors. -/
def fdLt (a b : Int) : Bool := decide (a < b)

/-! ## Server state -/

/-- The type of `database_`. -/
abbrev Database := StdMap Str Str

/-- The members `clients_` and `database_` of `class Server`, and the set of
descriptors registered with the epoll instance `epollFd_`. -/
structure Server where
  /-- Inbound buffer of every connection. -/
  clients_ : StdMap Int Str
  /-- The key-value store. -/
  database_ : Database
  /-- Descriptors registered by `register_epoll`. -/
  epoll_ : List Int
deriving DecidableEq

/-- State left by the constructor `Server::Server`: both maps empty. -/
def Server.init : Server := ⟨[], [], []⟩

/-! ## Stream extraction -/

/-- Whitespace of the classic locale (`std::isspace`). -/
def isspace (c : Char) : Bool :=
  c = ' ' || c = '\t' || c = '\n' || c = '\x0b' || c = '\x0c' || c = '\r'

/-- The extraction `iss >> token` on the unread contents `iss` of a stream: skip
leading whitespace, then take characters up to the next whitespace or the end.
`none` is the failed extraction (nothing but whitespace was left), otherwise
the token and the contents still unread. -/
def extract (iss : Str) : Option (Str × Str) :=
  match iss.dropWhile isspace with
  | [] => none
  | c :: cs =>
    some ((c :: cs).takeWhile (fun x => !isspace x), (c :: cs).dropWhile (fun x => !isspace x))

/-- The loop `while (iss >> token) tokens.push_back(token);`. -/
def process_tokens_loop (iss : Str) (tokens : List Str) : List Str :=
  match h : extract iss with
  | none => tokens
  | some (token, iss') => process_tokens_loop iss' (tokens ++ [token])
termination_by iss.length
decreasing_by
  unfold extract at h
  have hdrop : (iss.dropWhile isspace).length ≤ iss.length :=
    (List.dropWhile_sublist isspace).length_le
  cases hd : iss.dropWhile isspace with
  | nil => rw [hd] at h; cases h
  | cons c cs =>
    rw [hd] at h hdrop
    simp only [Option.some.injEq, Prod.mk.injEq] at h
    have hnot : isspace c = false := by
      have := List.head_dropWhile_not isspace iss (by rw [hd]; simp)
      simpa [hd] using this
    rw [List.dropWhile_cons_of_pos (by simp [hnot])] at h
    have : iss'.length ≤ cs.length := by
      rw [← h.2]; exact (List.dropWhile_sublist _).length_le
    simp only [List.length_cons] at hdrop
    omega

/-- The method `Server::process_tokens`. -/
def process_tokens (command : Str) : List Str :=
  process_tokens_loop command []

/-- Spec-side tokenisation, "split on whitespace into tokens": the pieces
between whitespace characters, empty pieces dropped. -/
def whitespaceTokens (line : Str) : List Str :=
  (line.splitOnP isspace).filter (fun t => t ≠ [])

/-! ## Commands -/

/-- The method `Server::process_command`: the response and the server after
the command. -/
def process_command (s : Server) (command : Str) : Str × Server :=
  let tokens := process_tokens command
  match tokens with
  | [] => ("2\n".toList, s)
  | t0 :: _ =>
    if t0 = "POST".toList ∧ tokens.length = 3 then
      ("0\n".toList,
        { s with database_ := StdMap.assign strLt s.database_ (tokens.getD 1 []) (tokens.getD 2 []) })
    else if t0 = "GET".toList ∧ tokens.length = 2 then
      if StdMap.count s.database_ (tokens.getD 1 []) ≠ 0 then
        let r := StdMap.subscript strLt [] s.database_ (tokens.getD 1 [])
        ("0 ".toList ++ r.2 ++ "\n".toList, { s with database_ := r.1 })
      else
        ("1\n".toList, s)
    else if t0 = "DELETE".toList ∧ tokens.length = 2 then
      let erased := { s with database_ := StdMap.erase s.database_ (tokens.getD 1 []) }
      if StdMap.erase_count s.database_ (tokens.getD 1 []) ≠ 0 then ("0\n".toList, erased)
      else ("1\n".toList, erased)
    else
      ("2\n".toList, s)

/-- The call `buff.find('\n')`: position of the first newline, `none` for
`npos`. -/
def find_newline (buff : Str) : Option Nat :=
  if buff.indexOf '\n' < buff.length then some (buff.indexOf '\n') else none

/-- The loop of `Server::process_commands` on the buffer `buff`: cut off the
first line, run it, send the response; `sent` collects the responses passed
to `send`. -/
def process_commands_loop (buff : Str) (s : Server) (sent : List Str) :
    Str × Server × List Str :=
  match h : find_newline buff with
  | none => (buff, s, sent)
  | some pos =>
    let command := buff.take pos
    let buff1 := buff.drop (pos + 1)
    let r := process_command s command
    process_commands_loop buff1 r.2 (sent ++ [r.1])
termination_by buff.length
decreasing_by
  unfold find_newline at h
  split at h
  · simp only [List.length_drop]
    omega
  · cases h

/-- The method `Server::process_commands`: `buff` is a reference to
`clients_[fd]`, so the rest of the buffer is stored back under `fd`.  Returns
the server and the responses sent to `fd`, in order. -/
def process_commands (s : Server) (fd : Int) : Server × List Str :=
  let b := StdMap.subscript fdLt [] s.clients_ fd
  let r := process_commands_loop b.2 { s with clients_ := b.1 } []
  ({ r.2.1 with clients_ := StdMap.assign fdLt r.2.1.clients_ fd r.1 }, r.2.2)

/-! ## Connections -/

/-- The method `Server::unregister_epoll`: `EPOLL_CTL_DEL` fails on a
descriptor that is not registered. -/
def unregister_epoll (s : Server) (fd : Int) : Except String Server :=
  if fd ∈ s.epoll_ then .ok { s with epoll_ := s.epoll_.erase fd }
  else .error "unregister_epoll"

/-- The method `Server::handle_disconnection`. -/
def handle_disconnection (s : Server) (fd : Int) : Except String Server :=
  unregister_epoll { s with clients_ := StdMap.erase s.clients_ fd } fd

/-- What one call `recv(fd, buff, sizeof(buff) - 1, 0)` yields: the bytes
copied to `buff`, at most 1023 (their number is the return value, 0 for a
closed peer), or -1 with `errno` being `EAGAIN` or `EWOULDBLOCK`, or -1 with
another `errno`. -/
inductive RecvResult where
  | bytes (data : Str)
  | eagain
  | failed
deriving DecidableEq

/-- The string a `char` array denotes: its characters before the first NUL. -/
def c_str (buff : Str) : Str :=
  buff.takeWhile (fun c => c ≠ Char.ofNat 0)

/-- The statements `buff[bytes] = 0; clients_[fd] += buff;` of
`Server::recv_data`. -/
def recv_append (s : Server) (fd : Int) (data : Str) : Server :=
  let b := StdMap.subscript fdLt [] s.clients_ fd
  { s with clients_ := StdMap.assign fdLt b.1 fd (b.2 ++ c_str data) }

/-- The method `Server::recv_data`.  `script` lists what the successive `recv`
calls yield; an exhausted script reads as `EAGAIN`.  Returns the server and
the responses sent to `fd`. -/
def recv_data (s : Server) (fd : Int) : List RecvResult → Except String (Server × List Str)
  | [] => .ok (process_commands s fd)
  | .bytes data :: script =>
    if 0 < data.length then recv_data (recv_append s fd data) fd script
    else (handle_disconnection s fd).map (fun s1 => (s1, []))
  | .eagain :: _ => .ok (process_commands s fd)
  | .failed :: _ => .error "recv"

/-- The receive events of one connection as `Server::run` dispatches them:
one call of `recv_data` per event, each with its own script. -/
def recv_events (s : Server) (fd : Int) : List (List RecvResult) → Except String (Server × List Str)
  | [] => .ok (s, [])
  | script :: events =>
    match recv_data s fd script with
    | .error cause => .error cause
    | .ok (s1, sent1) =>
      match recv_events s1 fd events with
      | .error cause => .error cause
      | .ok (s2, sent2) => .ok (s2, sent1 ++ sent2)

/-! ## Snapshot file -/

/-- The call `std::getline(ifs, line)` on the unread contents `ifs` of the
file: `none` when nothing is left, otherwise the characters up to the next
newline and the contents after that newline. -/
def getline (ifs : Str) : Option (Str × Str) :=
  match ifs with
  | [] => none
  | _ :: _ => some (ifs.takeWhile (fun c => c ≠ '\n'), (ifs.dropWhile (fun c => c ≠ '\n')).drop 1)

/-- The condition `iss >> key >> value` on a stream holding `line`: the two
extractions in turn; `none` when either fails. -/
def extract_key_value (line : Str) : Option (Str × Str) :=
  match extract line with
  | none => none
  | some (key, iss1) =>
    match extract iss1 with
    | none => none
    | some (value, _) => some (key, value)

/-- Body of the loop of `Server::load_database` for one line:
`if (iss >> key >> value) database_[key] = value;`. -/
def load_database_line (db : Database) (line : Str) : Database :=
  match extract_key_value line with
  | some (key, value) => StdMap.assign strLt db key value
  | none => db

/-- The loop `while (std::getline(ifs, line))` of `Server::load_database`. -/
def load_database_loop (ifs : Str) (db : Database) : Database :=
  match h : getline ifs with
  | none => db
  | some (line, ifs1) => load_database_loop ifs1 (load_database_line db line)
termination_by ifs.length
decreasing_by
  unfold getline at h
  cases ifs with
  | nil => cases h
  | cons c cs =>
    simp only [Option.some.injEq, Prod.mk.injEq] at h
    rw [← h.2]
    have := (List.dropWhile_sublist (fun c => decide (c ≠ '\n')) (l := c :: cs)).length_le
    simp only [List.length_drop, List.length_cons] at *
    omega

/-- The method `Server::load_database`; `file` is the contents of the file at
`path_`, `none` when it cannot be opened. -/
def load_database (s : Server) (file : Option Str) : Server :=
  match file with
  | none => s
  | some ifs => { s with database_ := load_database_loop ifs s.database_ }

/-- The method `Server::save_database`: the contents written to the file at
`path_`; `writable` tells whether the file can be opened for writing. -/
def save_database (s : Server) (writable : Bool) : Except String Str :=
  if writable then
    .ok (s.database_.foldl (fun ofs e => ofs ++ e.1 ++ " ".toList ++ e.2 ++ "\n".toList) [])
  else .error "ofs"

/-! ## Spec-side notions -/

/-- Spec-side notion of a field: a non-empty string without whitespace. -/
def Clean (x : Str) : Prop := x ≠ [] ∧ ∀ c ∈ x, isspace c = false

instance Clean.decidable (x : Str) : Decidable (Clean x) := by unfold Clean; infer_instance

/-- Spec-side: the token list has none of the three command shapes. -/
def Malformed (tokens : List Str) : Prop :=
  (¬ ∃ k v, tokens = ["POST".toList, k, v]) ∧ (¬ ∃ k, tokens = ["GET".toList, k]) ∧
    ¬ ∃ k, tokens = ["DELETE".toList, k]

/-- Spec-side: the lines of a text file, "read line by line": the pieces
between newlines, without an empty piece after the last newline. -/
def fileLines (text : Str) : List Str :=
  if (text.splitOnP (fun c => c = '\n')).getLast? = some [] then
    (text.splitOnP (fun c => c = '\n')).dropLast
  else text.splitOnP (fun c => c = '\n')

/-- Spec-side: the snapshot line of an entry, `key value`. -/
def entryLine (e : Str × Str) : Str := e.1 ++ " ".toList ++ e.2

/-- A strict total order, as `std::map` requires of its comparison. -/
structure StrictTotal {K : Type} (lt : K → K → Bool) : Prop where
  irrefl : ∀ a, lt a a = false
  trans : ∀ a b c, lt a b = true → lt b c = true → lt a c = true
  total : ∀ a b, a = b ∨ lt a b = true ∨ lt b a = true

/-- Spec-side: every key and every value of the store is a non-empty string
without whitespace. -/
def CleanDb (db : Database) : Prop := ∀ e ∈ db, Clean e.1 ∧ Clean e.2

instance CleanDb.decidable (db : Database) : Decidable (CleanDb db) := by
  unfold CleanDb; infer_instance

instance StdMap.Sorted.decidable {K V : Type} (lt : K → K → Bool) (m : StdMap K V) :
    Decidable (StdMap.Sorted lt m) := by
  unfold StdMap.Sorted; infer_instance

/-- Spec-side: the lines handed to the dispatcher one after the other; the
server after the last one and the responses in order. -/
def run_lines (s : Server) : List Str → Server × List Str
  | [] => (s, [])
  | l :: ls => ((run_lines (process_command s l).2 ls).1,
      (process_command s l).1 :: (run_lines (process_command s l).2 ls).2)

/-- The inbound buffer of connection `fd`, empty when the table has no entry. -/
def inbuf (s : Server) (fd : Int) : Str :=
  (StdMap.find s.clients_ fd).getD []

/-- The server with the inbound buffer of `fd` set to `buff`. -/
def setbuf (s : Server) (fd : Int) (buff : Str) : Server :=
  { s with clients_ := StdMap.assign fdLt s.clients_ fd buff }

/-- The script of a receive event in which `recv` yields the given pieces and
then reports `EAGAIN`. -/
def eventScript (pieces : List Str) : List RecvResult :=
  pieces.map RecvResult.bytes ++ [RecvResult.eagain]

/-- Spec-side: a receive event that delivers `data` whole: the bytes join the
inbound buffer of `fd`, then `process_commands` runs. -/
def feed (s : Server) (fd : Int) (data : Str) : Server × List Str :=
  process_commands (setbuf s fd (inbuf s fd ++ data)) fd

/-- Spec-side: a piece of received data that is not empty and has no NUL byte. -/
def Piece (p : Str) : Prop := p ≠ [] ∧ Char.ofNat 0 ∉ p

instance Piece.decidable (p : Str) : Decidable (Piece p) := by
  unfold Piece; infer_instance

/-! ## Lemmas: `std::map` -/

namespace StdMap
variable {K V : Type} [DecidableEq K]

theorem find_assign_self (lt : K → K → Bool) (m : StdMap K V) (k : K) (v : V) :
    find (assign lt m k v) k = some v := by
  induction m with
  | nil => simp [assign, find]
  | cons e m ih =>
    obtain ⟨k', v'⟩ := e
    unfold assign
    split_ifs with h1 h2
    · simp [find]
    · simp [find]
    · simp [find, Ne.symm h1, ih]

theorem find_assign_ne (lt : K → K → Bool) (m : StdMap K V) {k k2 : K} (v : V) (hne : k2 ≠ k) :
    find (assign lt m k v) k2 = find m k2 := by
  induction m with
  | nil => simp [assign, find, Ne.symm hne]
  | cons e m ih =>
    obtain ⟨k', v'⟩ := e
    unfold assign
    split_ifs with h1 h2
    · subst h1; simp [find, Ne.symm hne]
    · simp [find, Ne.symm hne]
    · simp [find, ih]

theorem erase_cons_self (m : StdMap K V) (k : K) (v : V) :
    erase ((k, v) :: m) k = erase m k := by
  simp [erase]

theorem erase_cons_ne (m : StdMap K V) {k k2 : K} (v : V) (hne : k2 ≠ k) :
    erase ((k2, v) :: m) k = (k2, v) :: erase m k := by
  simp [erase, hne]

theorem find_erase_self (m : StdMap K V) (k : K) : find (erase m k) k = none := by
  induction m with
  | nil => rfl
  | cons e m ih =>
    obtain ⟨k2, v2⟩ := e
    by_cases h : k2 = k
    · subst h; rw [erase_cons_self]; exact ih
    · rw [erase_cons_ne m v2 h]; simp [find, h, ih]

theorem find_erase_ne (m : StdMap K V) {k k2 : K} (hne : k2 ≠ k) :
    find (erase m k) k2 = find m k2 := by
  induction m with
  | nil => rfl
  | cons e m ih =>
    obtain ⟨k3, v3⟩ := e
    by_cases h : k3 = k
    · subst h; rw [erase_cons_self]; simp [find, Ne.symm hne, ih]
    · rw [erase_cons_ne m v3 h]; simp [find, ih]

theorem count_eq_zero_iff (m : StdMap K V) (k : K) : count m k = 0 ↔ find m k = none := by
  induction m with
  | nil => simp [count, find]
  | cons e m ih =>
    obtain ⟨k2, v2⟩ := e
    by_cases h : k2 = k
    · simp [count, find, h]
    · simpa [count, find, h, List.countP_cons] using ih

theorem erase_length_le (m : StdMap K V) (k : K) : (erase m k).length ≤ m.length :=
  List.length_filter_le _ _

theorem erase_count_eq_zero_iff (m : StdMap K V) (k : K) :
    erase_count m k = 0 ↔ find m k = none := by
  induction m with
  | nil => simp [erase_count, find, erase]
  | cons e m ih =>
    obtain ⟨k2, v2⟩ := e
    have hle := erase_length_le m k
    unfold erase_count at ih ⊢
    by_cases h : k2 = k
    · subst h
      rw [erase_cons_self]
      simp only [find, if_true, List.length_cons]
      constructor
      · intro h0; omega
      · intro h0; cases h0
    · rw [erase_cons_ne m v2 h]
      simp only [find, h, if_false, List.length_cons]
      rw [← ih]
      omega

theorem subscript_of_find {lt : K → K → Bool} {dflt : V} {m : StdMap K V} {k : K} {v : V}
    (h : find m k = some v) : subscript lt dflt m k = (m, v) := by
  simp [subscript, h]

end StdMap

/-! ## Lemmas: tokens -/

theorem whitespaceTokens_nil : whitespaceTokens [] = [] := by
  simp [whitespaceTokens]

theorem whitespaceTokens_cons_space {c : Char} (cs : Str) (hc : isspace c = true) :
    whitespaceTokens (c :: cs) = whitespaceTokens cs := by
  simp [whitespaceTokens, List.splitOnP_cons, hc]

theorem whitespaceTokens_dropWhile (l : Str) :
    whitespaceTokens (l.dropWhile isspace) = whitespaceTokens l := by
  induction l with
  | nil => rfl
  | cons c cs ih =>
    by_cases hc : isspace c = true
    · rw [List.dropWhile_cons_of_pos hc, ih, whitespaceTokens_cons_space cs hc]
    · rw [List.dropWhile_cons_of_neg hc]

theorem whitespaceTokens_cons_word {c : Char} (cs : Str) (hc : isspace c = false) :
    whitespaceTokens (c :: cs) =
      (c :: cs).takeWhile (fun x => !isspace x) ::
        whitespaceTokens ((c :: cs).dropWhile (fun x => !isspace x)) := by
  have hsplit := List.takeWhile_append_dropWhile (fun x => !isspace x) (c :: cs)
  have htok : ∀ x ∈ (c :: cs).takeWhile (fun x => !isspace x), ¬ isspace x = true := by
    intro x hx
    have := List.mem_takeWhile_imp hx
    simpa using this
  have hne : (c :: cs).takeWhile (fun x => !isspace x) ≠ [] := by
    rw [List.takeWhile_cons_of_pos (by simp [hc])]; simp
  cases hrest : (c :: cs).dropWhile (fun x => !isspace x) with
  | nil =>
    rw [hrest, List.append_nil] at hsplit
    rw [whitespaceTokens_nil]
    conv_lhs => rw [← hsplit]
    rw [hsplit] at htok hne ⊢
    simp [whitespaceTokens, List.splitOnP_eq_single _ _ htok, hne]
  | cons sep as =>
    have hsep : isspace sep = true := by
      have := List.head_dropWhile_not (fun x => !isspace x) (c :: cs) (by rw [hrest]; simp)
      simpa [hrest] using this
    rw [hrest] at hsplit
    rw [whitespaceTokens_cons_space as hsep]
    conv_lhs => rw [← hsplit]
    generalize (c :: cs).takeWhile (fun x => !isspace x) = tok at *
    simp [whitespaceTokens, List.splitOnP_first _ _ htok sep hsep, hne]

theorem extract_eq_none {iss : Str} (h : extract iss = none) : whitespaceTokens iss = [] := by
  unfold extract at h
  split at h
  · rename_i hd
    rw [← whitespaceTokens_dropWhile, hd, whitespaceTokens_nil]
  · cases h

theorem extract_eq_some {iss token rest : Str} (h : extract iss = some (token, rest)) :
    whitespaceTokens iss = token :: whitespaceTokens rest ∧ Clean token := by
  unfold extract at h
  split at h
  · cases h
  · rename_i c cs hd
    have hc : isspace c = false := by
      have := List.head_dropWhile_not isspace iss (by rw [hd]; simp)
      simpa [hd] using this
    simp only [Option.some.injEq, Prod.mk.injEq] at h
    obtain ⟨h1, h2⟩ := h
    refine ⟨?_, ?_, ?_⟩
    · rw [← whitespaceTokens_dropWhile, hd, whitespaceTokens_cons_word cs hc, h1, h2]
    · rw [← h1, List.takeWhile_cons_of_pos (by simp [hc])]; simp
    · intro x hx
      rw [← h1] at hx
      have := List.mem_takeWhile_imp hx
      simpa using this

theorem process_tokens_loop_eq (iss : Str) (tokens : List Str) :
    process_tokens_loop iss tokens = tokens ++ whitespaceTokens iss := by
  induction iss, tokens using process_tokens_loop.induct with
  | case1 iss tokens h =>
    rw [process_tokens_loop]
    split
    · rw [extract_eq_none h, List.append_nil]
    · rename_i h2; rw [h] at h2; cases h2
  | case2 iss tokens token rest h ih =>
    rw [process_tokens_loop]
    split
    · rename_i h2; rw [h] at h2; cases h2
    · rename_i token2 rest2 h2
      rw [h] at h2
      cases h2
      rw [ih, (extract_eq_some h).1]
      simp

/-- Refinement: `process_tokens` computes the spec-side split on whitespace. -/
theorem process_tokens_eq (command : Str) : process_tokens command = whitespaceTokens command := by
  simp [process_tokens, process_tokens_loop_eq]

/-! ## Lemmas: commands -/

theorem not_malformed_cases {tokens : List Str} (h : ¬ Malformed tokens) :
    (∃ k v, tokens = ["POST".toList, k, v]) ∨ (∃ k, tokens = ["GET".toList, k]) ∨
      ∃ k, tokens = ["DELETE".toList, k] := by
  unfold Malformed at h
  by_contra hc
  simp only [not_or] at hc
  exact h hc

theorem malformed_iff (tokens : List Str) :
    Malformed tokens ↔
      match tokens with
      | [t0, _, _] => t0 ≠ "POST".toList
      | [t0, _] => t0 ≠ "GET".toList ∧ t0 ≠ "DELETE".toList
      | _ => True := by
  unfold Malformed
  match tokens with
  | [] => simp
  | [t0] => simp
  | [t0, t1] => simp
  | [t0, t1, t2] => simp
  | t0 :: t1 :: t2 :: t3 :: rest => simp

theorem process_command_post (s : Server) {line k v : Str}
    (h : whitespaceTokens line = ["POST".toList, k, v]) :
    process_command s line =
      ("0\n".toList, { s with database_ := StdMap.assign strLt s.database_ k v }) := by
  simp [process_command, process_tokens_eq, h]

theorem process_command_get_some (s : Server) {line k v : Str}
    (h : whitespaceTokens line = ["GET".toList, k]) (hv : StdMap.find s.database_ k = some v) :
    process_command s line = ("0 ".toList ++ v ++ "\n".toList, s) := by
  have hc : StdMap.count s.database_ k ≠ 0 := by
    rw [Ne, StdMap.count_eq_zero_iff, hv]; simp
  have hne : ¬ "GET".toList = "POST".toList := by decide
  simp [process_command, process_tokens_eq, h, hc, StdMap.subscript_of_find hv, hne]

theorem process_command_get_none (s : Server) {line k : Str}
    (h : whitespaceTokens line = ["GET".toList, k]) (hv : StdMap.find s.database_ k = none) :
    process_command s line = ("1\n".toList, s) := by
  have hc : StdMap.count s.database_ k = 0 := by
    rw [StdMap.count_eq_zero_iff, hv]
  have hne : ¬ "GET".toList = "POST".toList := by decide
  simp [process_command, process_tokens_eq, h, hc, hne]

theorem process_command_delete (s : Server) {line k : Str}
    (h : whitespaceTokens line = ["DELETE".toList, k]) :
    process_command s line =
      (if StdMap.find s.database_ k = none then "1\n".toList else "0\n".toList,
        { s with database_ := StdMap.erase s.database_ k }) := by
  have hne : ¬ "DELETE".toList = "POST".toList := by decide
  have hne2 : ¬ "DELETE".toList = "GET".toList := by decide
  by_cases hv : StdMap.find s.database_ k = none
  · have hc := (StdMap.erase_count_eq_zero_iff s.database_ k).2 hv
    simp [process_command, process_tokens_eq, h, hc, hne, hne2, hv]
  · have hc := mt (StdMap.erase_count_eq_zero_iff s.database_ k).1 hv
    simp [process_command, process_tokens_eq, h, hc, hne, hne2, hv]

theorem process_command_malformed (s : Server) {line : Str}
    (h : Malformed (whitespaceTokens line)) : process_command s line = ("2\n".toList, s) := by
  obtain ⟨h1, h2, h3⟩ := h
  unfold process_command
  rw [process_tokens_eq]
  generalize whitespaceTokens line = tokens at *
  match tokens with
  | [] => rfl
  | [t0] => simp
  | [t0, t1] =>
    have g1 : ¬ t0 = ['G', 'E', 'T'] := fun e => h2 ⟨t1, by rw [e]; rfl⟩
    have g2 : ¬ t0 = ['D', 'E', 'L', 'E', 'T', 'E'] := fun e => h3 ⟨t1, by rw [e]; rfl⟩
    simp [g1, g2]
  | [t0, t1, t2] =>
    have g1 : ¬ t0 = ['P', 'O', 'S', 'T'] := fun e => h1 ⟨t1, t2, by rw [e]; rfl⟩
    simp [g1]
  | t0 :: t1 :: t2 :: t3 :: rest => simp

theorem process_command_wellformed (s : Server) {line : Str}
    (h : ¬ Malformed (whitespaceTokens line)) : (process_command s line).1 ≠ "2\n".toList := by
  rcases not_malformed_cases h with ⟨k, v, e⟩ | ⟨k, e⟩ | ⟨k, e⟩
  · rw [process_command_post s e]; simp
  · cases hv : StdMap.find s.database_ k with
    | none => rw [process_command_get_none s e hv]; simp
    | some v => rw [process_command_get_some s e hv]; simp
  · rw [process_command_delete s e]
    split_ifs <;> simp

/-! ## Lemmas: snapshot file -/

theorem fileLines_nil : fileLines [] = [] := by
  simp [fileLines]

theorem fileLines_append_newline (l rest : Str) (hl : '\n' ∉ l) :
    fileLines (l ++ '\n' :: rest) = l :: fileLines rest := by
  have hsplit : (l ++ '\n' :: rest).splitOnP (fun c => c = '\n') =
      l :: rest.splitOnP (fun c => c = '\n') := by
    apply List.splitOnP_first
    · intro x hx hp
      simp only [decide_eq_true_eq] at hp
      exact hl (hp ▸ hx)
    · simp
  have hne := List.splitOnP_ne_nil (fun c : Char => decide (c = '\n')) rest
  unfold fileLines
  rw [hsplit]
  cases hq : rest.splitOnP (fun c => c = '\n') with
  | nil => exact absurd hq hne
  | cons a as =>
    rw [List.getLast?_cons_cons]
    split_ifs with h
    · rw [List.dropLast_cons_of_ne_nil (by simp)]
    · rfl

theorem fileLines_of_no_newline (l : Str) (hne : l ≠ []) (hl : '\n' ∉ l) :
    fileLines l = [l] := by
  have hsplit : l.splitOnP (fun c => c = '\n') = [l] := by
    apply List.splitOnP_eq_single
    intro x hx hp
    simp only [decide_eq_true_eq] at hp
    exact hl (hp ▸ hx)
  unfold fileLines
  rw [hsplit]
  simp [hne]

theorem getline_eq_none {ifs : Str} (h : getline ifs = none) : ifs = [] := by
  cases ifs with
  | nil => rfl
  | cons c cs => simp [getline] at h

theorem getline_eq_some {ifs line rest : Str} (h : getline ifs = some (line, rest)) :
    fileLines ifs = line :: fileLines rest := by
  cases ifs with
  | nil => simp [getline] at h
  | cons c cs =>
    simp only [getline, Option.some.injEq, Prod.mk.injEq] at h
    obtain ⟨h1, h2⟩ := h
    have hsplit := List.takeWhile_append_dropWhile (fun x => decide (x ≠ '\n')) (c :: cs)
    have hline : '\n' ∉ line := by
      intro hmem
      rw [← h1] at hmem
      have := List.mem_takeWhile_imp hmem
      simp at this
    rw [h1] at hsplit
    cases hd : (c :: cs).dropWhile (fun x => decide (x ≠ '\n')) with
    | nil =>
      rw [hd] at hsplit h2
      simp only [List.append_nil, List.drop_nil] at hsplit h2
      rw [← h2, fileLines_nil, ← hsplit]
      exact fileLines_of_no_newline line (by rw [hsplit]; simp) hline
    | cons sep as =>
      have hsep : sep = '\n' := by
        have := List.head_dropWhile_not (fun x => decide (x ≠ '\n')) (c :: cs) (by rw [hd]; simp)
        simp only [hd, List.head_cons] at this
        simpa using this
      rw [hd] at hsplit h2
      simp only [List.drop_succ_cons, List.drop_zero] at h2
      rw [← hsplit, hsep, h2]
      exact fileLines_append_newline line rest hline

/-- Refinement: the `getline` loop folds the loop body over the lines of the text. -/
theorem load_database_loop_eq (ifs : Str) (db : Database) :
    load_database_loop ifs db = (fileLines ifs).foldl load_database_line db := by
  induction ifs, db using load_database_loop.induct with
  | case1 ifs db h =>
    rw [load_database_loop]
    split
    · rw [getline_eq_none h, fileLines_nil]; rfl
    · rename_i h2; rw [h] at h2; cases h2
  | case2 ifs db line rest h ih =>
    rw [load_database_loop]
    split
    · rename_i h2; rw [h] at h2; cases h2
    · rename_i line2 rest2 h2
      rw [h] at h2
      cases h2
      rw [ih, getline_eq_some h]
      rfl

/-- The extraction `iss >> key >> value` succeeds exactly on lines with at least
two fields, and yields the first two. -/
theorem extract_key_value_eq_some_iff (line k v : Str) :
    extract_key_value line = some (k, v) ↔ ∃ more, whitespaceTokens line = k :: v :: more := by
  unfold extract_key_value
  cases h1 : extract line with
  | none => simp [extract_eq_none h1]
  | some p1 =>
    obtain ⟨key, iss1⟩ := p1
    have e1 := (extract_eq_some h1).1
    cases h2 : extract iss1 with
    | none => simp [h2, e1, extract_eq_none h2]
    | some p2 =>
      obtain ⟨value, iss2⟩ := p2
      have e2 := (extract_eq_some h2).1
      simp [h2, e1, e2]

theorem extract_key_value_eq_none_iff (line : Str) :
    extract_key_value line = none ↔ (whitespaceTokens line).length < 2 := by
  unfold extract_key_value
  cases h1 : extract line with
  | none => simp [extract_eq_none h1]
  | some p1 =>
    obtain ⟨key, iss1⟩ := p1
    have e1 := (extract_eq_some h1).1
    cases h2 : extract iss1 with
    | none => simp [h2, e1, extract_eq_none h2]
    | some p2 =>
      obtain ⟨value, iss2⟩ := p2
      have e2 := (extract_eq_some h2).1
      simp [h2, e1, e2]

theorem extract_key_value_clean {line k v : Str} (h : extract_key_value line = some (k, v)) :
    Clean k ∧ Clean v := by
  unfold extract_key_value at h
  cases h1 : extract line with
  | none => rw [h1] at h; cases h
  | some p1 =>
    obtain ⟨key, iss1⟩ := p1
    cases h2 : extract iss1 with
    | none => rw [h1] at h; simp only [h2] at h; cases h
    | some p2 =>
      obtain ⟨value, iss2⟩ := p2
      rw [h1] at h
      simp only [h2, Option.some.injEq, Prod.mk.injEq] at h
      rw [← h.1, ← h.2]
      exact ⟨(extract_eq_some h1).2, (extract_eq_some h2).2⟩

theorem whitespaceTokens_clean (line : Str) : ∀ t ∈ whitespaceTokens line, Clean t := by
  rw [← process_tokens_eq, process_tokens]
  suffices h : ∀ (iss : Str) (tokens : List Str), (∀ t ∈ tokens, Clean t) →
      ∀ t ∈ process_tokens_loop iss tokens, Clean t from h line [] (by simp)
  intro iss tokens
  induction iss, tokens using process_tokens_loop.induct with
  | case1 iss tokens h =>
    intro hall
    rw [process_tokens_loop_eq, extract_eq_none h, List.append_nil]
    exact hall
  | case2 iss tokens token rest h ih =>
    intro hall
    rw [process_tokens_loop_eq, (extract_eq_some h).1]
    rw [process_tokens_loop_eq] at ih
    intro t ht
    apply ih
    · intro t2 ht2
      rcases List.mem_append.1 ht2 with h3 | h3
      · exact hall t2 h3
      · rw [List.mem_singleton.1 h3]; exact (extract_eq_some h).2
    · simpa using ht

theorem whitespaceTokens_entryLine {k v : Str} (hk : Clean k) (hv : Clean v) :
    whitespaceTokens (entryLine (k, v)) = [k, v] := by
  have h1 : (k ++ ' ' :: v).splitOnP isspace = k :: v.splitOnP isspace :=
    List.splitOnP_first _ _ (fun x hx => by simp [hk.2 x hx]) ' ' (by decide) v
  have h2 : v.splitOnP isspace = [v] :=
    List.splitOnP_eq_single _ _ (fun x hx => by simp [hv.2 x hx])
  have e : entryLine (k, v) = k ++ ' ' :: v := by simp [entryLine]
  rw [e, whitespaceTokens, h1, h2]
  simp [hk.1, hv.1]

/-! ## Lemmas: key order -/

theorem strLt_irrefl (a : Str) : strLt a a = false := by
  induction a with
  | nil => rfl
  | cons c cs ih => simp [strLt, ih]

theorem strLt_trans (a b c : Str) (h1 : strLt a b = true) (h2 : strLt b c = true) :
    strLt a c = true := by
  induction a generalizing b c with
  | nil =>
    cases b with
    | nil => simp [strLt] at h1
    | cons y ys =>
      cases c with
      | nil => simp [strLt] at h2
      | cons z zs => simp [strLt]
  | cons x xs ih =>
    cases b with
    | nil => simp [strLt] at h1
    | cons y ys =>
      cases c with
      | nil => simp [strLt] at h2
      | cons z zs =>
        rcases lt_trichotomy x y with hxy | hxy | hxy
        · rcases lt_trichotomy y z with hyz | hyz | hyz
          · simp [strLt, lt_trans hxy hyz]
          · subst hyz; simp [strLt, hxy]
          · simp [strLt, hyz, lt_asymm hyz] at h2
        · subst hxy
          rcases lt_trichotomy x z with hyz | hyz | hyz
          · simp [strLt, hyz]
          · subst hyz
            simp only [strLt, lt_irrefl, if_false] at h1 h2 ⊢
            exact ih _ _ h1 h2
          · simp [strLt, hyz, lt_asymm hyz] at h2
        · simp [strLt, hxy, lt_asymm hxy] at h1

theorem strLt_total (a b : Str) : a = b ∨ strLt a b = true ∨ strLt b a = true := by
  induction a generalizing b with
  | nil =>
    cases b with
    | nil => exact Or.inl rfl
    | cons y ys => exact Or.inr (Or.inl rfl)
  | cons x xs ih =>
    cases b with
    | nil => exact Or.inr (Or.inr rfl)
    | cons y ys =>
      simp only [strLt]
      rcases lt_trichotomy x y with h | h | h
      · simp [h]
      · subst h
        rcases ih ys with e | e | e
        · simp [e]
        · simp [e]
        · simp [e]
      · simp [h, lt_asymm h]

theorem strLt_strictTotal : StrictTotal strLt :=
  ⟨strLt_irrefl, strLt_trans, strLt_total⟩

theorem fdLt_strictTotal : StrictTotal fdLt := by
  refine ⟨fun a => ?_, fun a b c h1 h2 => ?_, fun a b => ?_⟩
  · simp [fdLt]
  · simp only [fdLt, decide_eq_true_eq] at *; omega
  · simp only [fdLt, decide_eq_true_eq]; omega

namespace StdMap
variable {K V : Type} [DecidableEq K]

theorem mem_assign {lt : K → K → Bool} {m : StdMap K V} {k : K} {v : V} {e : K × V}
    (h : e ∈ assign lt m k v) : e = (k, v) ∨ e ∈ m := by
  induction m with
  | nil => simpa [assign] using h
  | cons e2 m ih =>
    obtain ⟨k2, v2⟩ := e2
    unfold assign at h
    split_ifs at h with h1 h2
    · rcases List.mem_cons.1 h with h3 | h3
      · exact Or.inl h3
      · exact Or.inr (List.mem_cons_of_mem _ h3)
    · rcases List.mem_cons.1 h with h3 | h3
      · exact Or.inl h3
      · exact Or.inr h3
    · rcases List.mem_cons.1 h with h3 | h3
      · exact Or.inr (h3 ▸ List.mem_cons_self _ _)
      · rcases ih h3 with h4 | h4
        · exact Or.inl h4
        · exact Or.inr (List.mem_cons_of_mem _ h4)

theorem mem_erase {m : StdMap K V} {k : K} {e : K × V} (h : e ∈ erase m k) : e ∈ m :=
  List.mem_of_mem_filter h

theorem Sorted.nil (lt : K → K → Bool) : Sorted lt ([] : StdMap K V) := by
  simp [Sorted]

theorem sorted_cons {lt : K → K → Bool} {e : K × V} {m : StdMap K V} :
    Sorted lt (e :: m) ↔ (∀ e2 ∈ m, lt e.1 e2.1 = true) ∧ Sorted lt m := by
  simp [Sorted, List.pairwise_cons]

theorem Sorted.assign {lt : K → K → Bool} (hlt : StrictTotal lt) {m : StdMap K V}
    (h : Sorted lt m) (k : K) (v : V) : Sorted lt (assign lt m k v) := by
  induction m with
  | nil => simp [StdMap.assign, Sorted]
  | cons e m ih =>
    obtain ⟨k2, v2⟩ := e
    obtain ⟨hhead, htail⟩ := sorted_cons.1 h
    unfold StdMap.assign
    split_ifs with h1 h2
    · subst h1
      exact sorted_cons.2 ⟨hhead, htail⟩
    · refine sorted_cons.2 ⟨?_, h⟩
      intro e2 he2
      rcases List.mem_cons.1 he2 with h3 | h3
      · rw [h3]; exact h2
      · exact hlt.trans _ _ _ h2 (hhead e2 h3)
    · refine sorted_cons.2 ⟨?_, ih htail⟩
      intro e2 he2
      rcases mem_assign he2 with h3 | h3
      · rw [h3]
        rcases hlt.total k k2 with h4 | h4 | h4
        · exact absurd h4 h1
        · exact absurd h4 h2
        · exact h4
      · exact hhead e2 h3

theorem Sorted.erase {lt : K → K → Bool} {m : StdMap K V} (h : Sorted lt m) (k : K) :
    Sorted lt (erase m k) := by
  unfold Sorted at h ⊢
  rw [List.pairwise_map] at h ⊢
  exact h.filter _

theorem assign_append_of_lt {lt : K → K → Bool} (hlt : StrictTotal lt) (m : StdMap K V)
    (k : K) (v : V) (h : ∀ e ∈ m, lt e.1 k = true) : assign lt m k v = m ++ [(k, v)] := by
  induction m with
  | nil => rfl
  | cons e m ih =>
    obtain ⟨k2, v2⟩ := e
    have h0 : lt k2 k = true := h (k2, v2) (List.mem_cons_self _ _)
    have h1 : ¬ k = k2 := by
      intro e; subst e
      rw [hlt.irrefl] at h0; cases h0
    have h2 : ¬ lt k k2 = true := by
      intro h3
      have := hlt.trans _ _ _ h0 h3
      rw [hlt.irrefl] at this; cases this
    unfold assign
    rw [if_neg h1, if_neg h2, ih (fun e he => h e (List.mem_cons_of_mem _ he))]
    rfl

theorem foldl_assign_sorted {lt : K → K → Bool} (hlt : StrictTotal lt) (pre m : StdMap K V)
    (h : Sorted lt (pre ++ m)) :
    m.foldl (fun db e => assign lt db e.1 e.2) pre = pre ++ m := by
  induction m generalizing pre with
  | nil => simp
  | cons e m ih =>
    have hstep : assign lt pre e.1 e.2 = pre ++ [e] := by
      apply assign_append_of_lt hlt
      intro e2 he2
      unfold Sorted at h
      rw [List.map_append, List.pairwise_append] at h
      exact h.2.2 e2.1 (List.mem_map_of_mem _ he2) e.1 (by simp)
    rw [List.foldl_cons, hstep, ih (pre ++ [e]) (by simpa using h)]
    simp

end StdMap

/-! ## Lemmas: loading and saving -/

theorem StdMap.erase_of_find_none {K V : Type} [DecidableEq K] (m : StdMap K V) (k : K)
    (h : StdMap.find m k = none) : StdMap.erase m k = m := by
  induction m with
  | nil => rfl
  | cons e m ih =>
    obtain ⟨k2, v2⟩ := e
    by_cases hk : k2 = k
    · simp [StdMap.find, hk] at h
    · simp only [StdMap.find, hk, if_false] at h
      rw [StdMap.erase_cons_ne m v2 hk, ih h]

theorem StdMap.find_foldl_assign {K V : Type} [DecidableEq K] (lt : K → K → Bool)
    (entries db : StdMap K V) (k : K) :
    StdMap.find (entries.foldl (fun d e => StdMap.assign lt d e.1 e.2) db) k =
      match (entries.filter (fun e => e.1 = k)).getLast? with
      | some e => some e.2
      | none => StdMap.find db k := by
  induction entries generalizing db with
  | nil => simp
  | cons e es ih =>
    rw [List.foldl_cons, ih]
    by_cases hk : e.1 = k
    · rw [List.filter_cons_of_pos (by simpa using hk), List.getLast?_cons]
      cases hf : (es.filter (fun e => e.1 = k)).getLast? with
      | none => simp [← hk, StdMap.find_assign_self]
      | some a => simp
    · rw [List.filter_cons_of_neg (by simpa using hk)]
      cases hf : (es.filter (fun e => e.1 = k)).getLast? with
      | none => simp [StdMap.find_assign_ne lt db e.2 (Ne.symm hk)]
      | some a => simp

theorem load_database_line_of_some {db : Database} {line k v : Str}
    (h : extract_key_value line = some (k, v)) :
    load_database_line db line = StdMap.assign strLt db k v := by
  simp [load_database_line, h]

theorem load_database_line_of_none {db : Database} {line : Str}
    (h : extract_key_value line = none) : load_database_line db line = db := by
  simp [load_database_line, h]

theorem foldl_load_database_line (lines : List Str) (db : Database) :
    lines.foldl load_database_line db =
      (lines.filterMap extract_key_value).foldl (fun d e => StdMap.assign strLt d e.1 e.2) db := by
  induction lines generalizing db with
  | nil => rfl
  | cons l ls ih =>
    rw [List.foldl_cons, ih]
    cases h : extract_key_value l with
    | none => rw [load_database_line_of_none h, List.filterMap_cons_none h]
    | some e =>
      obtain ⟨k, v⟩ := e
      rw [load_database_line_of_some h, List.filterMap_cons_some h]
      rfl

theorem cleanDb_assign {db : Database} {k v : Str} (h : CleanDb db) (hk : Clean k)
    (hv : Clean v) : CleanDb (StdMap.assign strLt db k v) := by
  intro e he
  rcases StdMap.mem_assign he with h1 | h1
  · rw [h1]; exact ⟨hk, hv⟩
  · exact h e h1

theorem cleanDb_load_database_line {db : Database} (h : CleanDb db) (line : Str) :
    CleanDb (load_database_line db line) := by
  cases hx : extract_key_value line with
  | none => rw [load_database_line_of_none hx]; exact h
  | some e =>
    obtain ⟨k, v⟩ := e
    rw [load_database_line_of_some hx]
    exact cleanDb_assign h (extract_key_value_clean hx).1 (extract_key_value_clean hx).2

theorem cleanDb_load_database {s : Server} (h : CleanDb s.database_) (file : Option Str) :
    CleanDb (load_database s file).database_ := by
  cases file with
  | none => exact h
  | some ifs =>
    simp only [load_database]
    rw [load_database_loop_eq]
    generalize fileLines ifs = lines
    generalize s.database_ = db at h
    induction lines generalizing db with
    | nil => exact h
    | cons l ls ih => exact ih _ (cleanDb_load_database_line h l)

theorem process_command_cases (s : Server) (line : Str) :
    (process_command s line).2 = s ∨
    (∃ k v, Clean k ∧ Clean v ∧
      (process_command s line).2 = { s with database_ := StdMap.assign strLt s.database_ k v }) ∨
    ∃ k, (process_command s line).2 = { s with database_ := StdMap.erase s.database_ k } := by
  by_cases hm : Malformed (whitespaceTokens line)
  · rw [process_command_malformed s hm]; exact Or.inl rfl
  · rcases not_malformed_cases hm with ⟨k, v, e⟩ | ⟨k, e⟩ | ⟨k, e⟩
    · rw [process_command_post s e]
      have hc := whitespaceTokens_clean line
      rw [e] at hc
      exact Or.inr (Or.inl ⟨k, v, hc k (by simp), hc v (by simp), rfl⟩)
    · cases hv : StdMap.find s.database_ k with
      | none => rw [process_command_get_none s e hv]; exact Or.inl rfl
      | some v => rw [process_command_get_some s e hv]; exact Or.inl rfl
    · rw [process_command_delete s e]
      exact Or.inr (Or.inr ⟨k, rfl⟩)

theorem cleanDb_process_command {s : Server} (h : CleanDb s.database_) (line : Str) :
    CleanDb (process_command s line).2.database_ := by
  rcases process_command_cases s line with e | ⟨k, v, hk, hv, e⟩ | ⟨k, e⟩
  · rw [e]; exact h
  · rw [e]; exact cleanDb_assign h hk hv
  · rw [e]; exact fun x hx => h x (StdMap.mem_erase hx)

theorem sorted_process_command {s : Server} (h : StdMap.Sorted strLt s.database_) (line : Str) :
    StdMap.Sorted strLt (process_command s line).2.database_ := by
  rcases process_command_cases s line with e | ⟨k, v, -, -, e⟩ | ⟨k, e⟩
  · rw [e]; exact h
  · rw [e]; exact h.assign strLt_strictTotal k v
  · rw [e]; exact h.erase k

theorem sorted_load_database {s : Server} (h : StdMap.Sorted strLt s.database_)
    (file : Option Str) : StdMap.Sorted strLt (load_database s file).database_ := by
  cases file with
  | none => exact h
  | some ifs =>
    simp only [load_database]
    rw [load_database_loop_eq, foldl_load_database_line]
    generalize (fileLines ifs).filterMap extract_key_value = entries
    generalize s.database_ = db at h
    induction entries generalizing db with
    | nil => exact h
    | cons e es ih => exact ih _ (h.assign strLt_strictTotal e.1 e.2)

/-- Text of the snapshot of a store: one line `key value` per entry. -/
theorem save_database_eq (s : Server) :
    save_database s true =
      .ok (s.database_.map (fun e => entryLine e ++ "\n".toList)).flatten := by
  have h : ∀ (db : Database) (acc : Str),
      db.foldl (fun ofs e => ofs ++ e.1 ++ " ".toList ++ e.2 ++ "\n".toList) acc =
        acc ++ (db.map (fun e => entryLine e ++ "\n".toList)).flatten := by
    intro db
    induction db with
    | nil => simp
    | cons e db ih => intro acc; rw [List.foldl_cons, ih]; simp [entryLine]
  rw [save_database, if_pos rfl, h]
  rfl

theorem entryLine_no_newline {e : Str × Str} (h : Clean e.1 ∧ Clean e.2) :
    '\n' ∉ entryLine e := by
  intro hmem
  simp only [entryLine, List.mem_append] at hmem
  rcases hmem with (h1 | h1) | h1
  · have := h.1.2 _ h1; revert this; decide
  · revert h1; decide
  · have := h.2.2 _ h1; revert this; decide

theorem fileLines_snapshot (db : Database) (h : CleanDb db) :
    fileLines (db.map (fun e => entryLine e ++ "\n".toList)).flatten = db.map entryLine := by
  induction db with
  | nil => exact fileLines_nil
  | cons e db ih =>
    have e1 : ((e :: db).map (fun e => entryLine e ++ "\n".toList)).flatten =
        entryLine e ++ '\n' :: (db.map (fun e => entryLine e ++ "\n".toList)).flatten := by
      simp
    rw [e1, fileLines_append_newline _ _ (entryLine_no_newline (h e (List.mem_cons_self _ _))),
      ih (fun x hx => h x (List.mem_cons_of_mem _ hx))]
    rfl

theorem extract_key_value_entryLine {e : Str × Str} (h : Clean e.1 ∧ Clean e.2) :
    extract_key_value (entryLine e) = some e := by
  obtain ⟨k, v⟩ := e
  rw [extract_key_value_eq_some_iff]
  exact ⟨[], whitespaceTokens_entryLine h.1 h.2⟩

theorem filterMap_extract_entryLine (db : Database) (h : CleanDb db) :
    (db.map entryLine).filterMap extract_key_value = db := by
  induction db with
  | nil => rfl
  | cons e db ih =>
    rw [List.map_cons, List.filterMap_cons_some
      (extract_key_value_entryLine (h e (List.mem_cons_self _ _))),
      ih (fun x hx => h x (List.mem_cons_of_mem _ hx))]

/-- Loading the snapshot of a store into a fresh server gives that store. -/
theorem load_snapshot (s : Server) (hs : StdMap.Sorted strLt s.database_)
    (hc : CleanDb s.database_) :
    load_database Server.init
      (some (s.database_.map (fun e => entryLine e ++ "\n".toList)).flatten) =
      { Server.init with database_ := s.database_ } := by
  simp only [load_database]
  rw [load_database_loop_eq, fileLines_snapshot _ hc, foldl_load_database_line,
    filterMap_extract_entryLine _ hc]
  have := StdMap.foldl_assign_sorted strLt_strictTotal [] s.database_ (by simpa using hs)
  simp only [Server.init]
  rw [this]
  rfl

/-! ## Lemmas: framing -/

theorem find_newline_eq_none {buff : Str} (h : find_newline buff = none) : '\n' ∉ buff := by
  unfold find_newline at h
  split_ifs at h with h1
  exact fun hm => h1 (List.indexOf_lt_length.2 hm)

theorem find_newline_of_not_mem {buff : Str} (h : '\n' ∉ buff) : find_newline buff = none := by
  unfold find_newline
  rw [if_neg]
  exact fun h1 => h (List.indexOf_lt_length.1 h1)

theorem find_newline_append_newline (l more : Str) (h : '\n' ∉ l) :
    find_newline (l ++ '\n' :: more) = some l.length := by
  have hidx : (l ++ '\n' :: more).indexOf '\n' = l.length := by
    induction l with
    | nil => simp
    | cons c cs ih =>
      have hc : c ≠ '\n' := fun e => h (e ▸ List.mem_cons_self _ _)
      have hcs : '\n' ∉ cs := fun hm => h (List.mem_cons_of_mem _ hm)
      rw [List.cons_append, List.indexOf_cons_ne _ hc, ih hcs]
      rfl
  unfold find_newline
  rw [hidx, if_pos (by simp)]

theorem indexOf_newline_split (buff : Str) (hm : '\n' ∈ buff) :
    buff = buff.take (buff.indexOf '\n') ++ '\n' :: buff.drop (buff.indexOf '\n' + 1) ∧
      '\n' ∉ buff.take (buff.indexOf '\n') := by
  induction buff with
  | nil => cases hm
  | cons c cs ih =>
    by_cases hc : c = '\n'
    · subst hc
      simp
    · have hcs : '\n' ∈ cs := by
        rcases List.mem_cons.1 hm with h | h
        · exact absurd h.symm hc
        · exact h
      obtain ⟨h1, h2⟩ := ih hcs
      rw [List.indexOf_cons_ne _ hc]
      refine ⟨?_, ?_⟩
      · simp only [Nat.succ_eq_add_one, List.take_succ_cons, List.drop_succ_cons, List.cons_append]
        rw [← h1]
      · simp only [Nat.succ_eq_add_one, List.take_succ_cons, List.mem_cons, not_or]
        exact ⟨fun e => hc e.symm, h2⟩

theorem find_newline_eq_some {buff : Str} {pos : Nat} (h : find_newline buff = some pos) :
    buff = buff.take pos ++ '\n' :: buff.drop (pos + 1) ∧ '\n' ∉ buff.take pos ∧
      pos < buff.length := by
  unfold find_newline at h
  split_ifs at h with h1
  simp only [Option.some.injEq] at h
  subst h
  have := indexOf_newline_split buff (List.indexOf_lt_length.1 h1)
  exact ⟨this.1, this.2, h1⟩

theorem process_commands_loop_of_none {buff : Str} (s : Server) (sent : List Str)
    (h : find_newline buff = none) : process_commands_loop buff s sent = (buff, s, sent) := by
  rw [process_commands_loop]
  split
  · rfl
  · rename_i h2; rw [h] at h2; cases h2

theorem process_commands_loop_of_some {buff : Str} {pos : Nat} (s : Server) (sent : List Str)
    (h : find_newline buff = some pos) :
    process_commands_loop buff s sent =
      process_commands_loop (buff.drop (pos + 1)) (process_command s (buff.take pos)).2
        (sent ++ [(process_command s (buff.take pos)).1]) := by
  rw [process_commands_loop]
  split
  · rename_i h2; rw [h] at h2; cases h2
  · rename_i pos2 h2
    rw [h] at h2
    cases h2
    rfl

theorem process_commands_loop_line (l more : Str) (s : Server) (sent : List Str)
    (h : '\n' ∉ l) :
    process_commands_loop (l ++ '\n' :: more) s sent =
      process_commands_loop more (process_command s l).2 (sent ++ [(process_command s l).1]) := by
  rw [process_commands_loop_of_some s sent (find_newline_append_newline l more h)]
  simp

/-- Unique decomposition of a buffer into newline-terminated lines and a rest,
and what the loop does with it. -/
theorem process_commands_loop_spec (buff : Str) (s : Server) (sent : List Str) :
    ∃ lines rest, buff = (lines.map (fun l => l ++ ['\n'])).flatten ++ rest ∧
      (∀ l ∈ lines, '\n' ∉ l) ∧ '\n' ∉ rest ∧
      process_commands_loop buff s sent =
        (rest, (run_lines s lines).1, sent ++ (run_lines s lines).2) := by
  induction buff, s, sent using process_commands_loop.induct with
  | case1 buff s sent h =>
    exact ⟨[], buff, by simp, by simp, find_newline_eq_none h,
      by rw [process_commands_loop_of_none s sent h]; simp [run_lines]⟩
  | case2 buff s sent pos h command buff1 r ih =>
    obtain ⟨lines, rest, h1, h2, h3, h4⟩ := ih
    obtain ⟨e1, e2, -⟩ := find_newline_eq_some h
    refine ⟨command :: lines, rest, ?_, ?_, h3, ?_⟩
    · have h1b : buff.drop (pos + 1) =
          (lines.map (fun l => l ++ ['\n'])).flatten ++ rest := h1
      show buff = ((buff.take pos :: lines).map (fun l => l ++ ['\n'])).flatten ++ rest
      rw [List.map_cons, List.flatten_cons, List.append_assoc, List.append_assoc, ← h1b]
      exact e1
    · intro l hl
      rcases List.mem_cons.1 hl with h5 | h5
      · rw [h5]; exact e2
      · exact h2 l h5
    · rw [process_commands_loop_of_some s sent h, h4]
      simp [run_lines, r, command]

/-- Data arriving after a scan of the buffer has the effect it would have had in
the buffer from the start. -/
theorem process_commands_loop_append (b c : Str) (s : Server) (sent : List Str) :
    process_commands_loop (b ++ c) s sent =
      process_commands_loop ((process_commands_loop b s sent).1 ++ c)
        (process_commands_loop b s sent).2.1 (process_commands_loop b s sent).2.2 := by
  induction b, s, sent using process_commands_loop.induct with
  | case1 buff s sent h => rw [process_commands_loop_of_none s sent h]
  | case2 buff s sent pos h command buff1 r ih =>
    obtain ⟨e1, e2, -⟩ := find_newline_eq_some h
    rw [process_commands_loop_of_some s sent h, ← ih]
    conv_lhs => rw [e1, List.append_assoc, List.cons_append,
      process_commands_loop_line _ _ s sent e2]

theorem process_command_clients (s : Server) (c : StdMap Int Str) (line : Str) :
    process_command { s with clients_ := c } line =
      ((process_command s line).1, { (process_command s line).2 with clients_ := c }) := by
  by_cases hm : Malformed (whitespaceTokens line)
  · rw [process_command_malformed _ hm, process_command_malformed _ hm]
  · rcases not_malformed_cases hm with ⟨k, v, e⟩ | ⟨k, e⟩ | ⟨k, e⟩
    · rw [process_command_post _ e, process_command_post _ e]
    · cases hv : StdMap.find s.database_ k with
      | none =>
        rw [process_command_get_none s e hv,
          process_command_get_none { s with clients_ := c } e hv]
      | some v =>
        rw [process_command_get_some s e hv,
          process_command_get_some { s with clients_ := c } e hv]
    · rw [process_command_delete _ e, process_command_delete _ e]

theorem process_command_frame (s : Server) (line : Str) :
    (process_command s line).2.clients_ = s.clients_ ∧
      (process_command s line).2.epoll_ = s.epoll_ := by
  rcases process_command_cases s line with e | ⟨k, v, -, -, e⟩ | ⟨k, e⟩ <;> rw [e] <;> exact ⟨rfl, rfl⟩

theorem process_commands_loop_clients (buff : Str) (s : Server) (sent : List Str)
    (c : StdMap Int Str) :
    process_commands_loop buff { s with clients_ := c } sent =
      ((process_commands_loop buff s sent).1,
        { (process_commands_loop buff s sent).2.1 with clients_ := c },
        (process_commands_loop buff s sent).2.2) := by
  induction buff, s, sent using process_commands_loop.induct with
  | case1 buff s sent h =>
    rw [process_commands_loop_of_none _ sent h, process_commands_loop_of_none _ sent h]
  | case2 buff s sent pos h command buff1 r ih =>
    rw [process_commands_loop_of_some _ sent h, process_commands_loop_of_some _ sent h,
      process_command_clients]
    exact ih

theorem process_commands_loop_frame (buff : Str) (s : Server) (sent : List Str) :
    (process_commands_loop buff s sent).2.1.clients_ = s.clients_ ∧
      (process_commands_loop buff s sent).2.1.epoll_ = s.epoll_ := by
  induction buff, s, sent using process_commands_loop.induct with
  | case1 buff s sent h => rw [process_commands_loop_of_none _ sent h]; exact ⟨rfl, rfl⟩
  | case2 buff s sent pos h command buff1 r ih =>
    rw [process_commands_loop_of_some _ sent h]
    exact ⟨ih.1.trans (process_command_frame s _).1, ih.2.trans (process_command_frame s _).2⟩

theorem process_commands_loop_sent_append (buff : Str) (s : Server) (sent pre : List Str) :
    process_commands_loop buff s (pre ++ sent) =
      ((process_commands_loop buff s sent).1, (process_commands_loop buff s sent).2.1,
        pre ++ (process_commands_loop buff s sent).2.2) := by
  induction buff, s, sent using process_commands_loop.induct with
  | case1 buff s sent h =>
    rw [process_commands_loop_of_none _ _ h, process_commands_loop_of_none _ _ h]
  | case2 buff s sent pos h command buff1 r ih =>
    rw [process_commands_loop_of_some _ _ h, process_commands_loop_of_some _ sent h,
      List.append_assoc]
    exact ih

theorem process_commands_loop_sent (buff : Str) (s : Server) (sent : List Str) :
    process_commands_loop buff s sent =
      ((process_commands_loop buff s []).1, (process_commands_loop buff s []).2.1,
        sent ++ (process_commands_loop buff s []).2.2) := by
  have := process_commands_loop_sent_append buff s [] sent
  rwa [List.append_nil] at this

/-! ## Lemmas: receive events -/

namespace StdMap
variable {K V : Type} [DecidableEq K]

theorem assign_assign (lt : K → K → Bool) (m : StdMap K V) (k : K) (v w : V) :
    assign lt (assign lt m k v) k w = assign lt m k w := by
  induction m with
  | nil => simp [assign]
  | cons e m ih =>
    obtain ⟨k2, v2⟩ := e
    by_cases h1 : k = k2
    · simp [assign, h1]
    · by_cases h2 : lt k k2 = true
      · simp [assign, h1, h2]
      · simp [assign, h1, h2, ih]

theorem subscript_snd (lt : K → K → Bool) (dflt : V) (m : StdMap K V) (k : K) :
    (subscript lt dflt m k).2 = (find m k).getD dflt := by
  unfold subscript
  cases find m k <;> rfl

theorem assign_subscript (lt : K → K → Bool) (dflt : V) (m : StdMap K V) (k : K) (w : V) :
    assign lt (subscript lt dflt m k).1 k w = assign lt m k w := by
  unfold subscript
  cases find m k with
  | none => exact assign_assign lt m k dflt w
  | some v => rfl

end StdMap

theorem inbuf_setbuf (s : Server) (fd : Int) (buff : Str) : inbuf (setbuf s fd buff) fd = buff := by
  simp [inbuf, setbuf, StdMap.find_assign_self]

theorem setbuf_setbuf (s : Server) (fd : Int) (x y : Str) :
    setbuf (setbuf s fd x) fd y = setbuf s fd y := by
  simp [setbuf, StdMap.assign_assign]

theorem c_str_of_no_nul {data : Str} (h : Char.ofNat 0 ∉ data) : c_str data = data := by
  unfold c_str
  rw [List.takeWhile_eq_self_iff]
  intro x hx
  simp only [ne_eq, decide_not, Bool.not_eq_true', decide_eq_false_iff_not]
  exact fun e => h (e ▸ hx)

/-- The append of `recv_data` in terms of the buffer of `fd`. -/
theorem recv_append_eq (s : Server) (fd : Int) (data : Str) :
    recv_append s fd data = setbuf s fd (inbuf s fd ++ c_str data) := by
  simp only [recv_append, setbuf, inbuf, StdMap.subscript_snd, StdMap.assign_subscript]

/-- The method `process_commands` in terms of its loop on the buffer of `fd`. -/
theorem process_commands_eq (s : Server) (fd : Int) :
    process_commands s fd =
      (setbuf (process_commands_loop (inbuf s fd) s []).2.1 fd
        (process_commands_loop (inbuf s fd) s []).1,
        (process_commands_loop (inbuf s fd) s []).2.2) := by
  simp only [process_commands, StdMap.subscript_snd, process_commands_loop_clients, setbuf,
    StdMap.assign_subscript, (process_commands_loop_frame _ s []).1]
  rfl

theorem feed_eq (s : Server) (fd : Int) (data : Str) :
    feed s fd data =
      (setbuf (process_commands_loop (inbuf s fd ++ data) s []).2.1 fd
        (process_commands_loop (inbuf s fd ++ data) s []).1,
        (process_commands_loop (inbuf s fd ++ data) s []).2.2) := by
  rw [feed, process_commands_eq, inbuf_setbuf]
  have h := process_commands_loop_clients (inbuf s fd ++ data) s []
    (StdMap.assign fdLt s.clients_ fd (inbuf s fd ++ data))
  have hs : setbuf s fd (inbuf s fd ++ data) =
      { s with clients_ := StdMap.assign fdLt s.clients_ fd (inbuf s fd ++ data) } := rfl
  rw [hs, h]
  simp only [setbuf, StdMap.assign_assign, (process_commands_loop_frame _ s []).1]

theorem feed_nil (s : Server) (fd : Int) : feed s fd [] = process_commands s fd := by
  rw [feed_eq, process_commands_eq, List.append_nil]

theorem feed_recv_append (s : Server) (fd : Int) (p q : Str) (hp : Char.ofNat 0 ∉ p) :
    feed (recv_append s fd p) fd q = feed s fd (p ++ q) := by
  rw [recv_append_eq, c_str_of_no_nul hp, feed, feed, inbuf_setbuf, setbuf_setbuf,
    List.append_assoc]

theorem feed_append (s : Server) (fd : Int) (d1 d2 : Str) :
    feed s fd (d1 ++ d2) =
      ((feed (feed s fd d1).1 fd d2).1, (feed s fd d1).2 ++ (feed (feed s fd d1).1 fd d2).2) := by
  rw [feed_eq s fd d1, feed_eq _ fd d2, feed_eq s fd (d1 ++ d2), inbuf_setbuf]
  rw [← List.append_assoc, process_commands_loop_append (inbuf s fd ++ d1) d2 s []]
  generalize process_commands_loop (inbuf s fd ++ d1) s [] = L1
  rw [process_commands_loop_sent _ L1.2.1 L1.2.2]
  have h := process_commands_loop_clients (L1.1 ++ d2) L1.2.1 []
    (StdMap.assign fdLt L1.2.1.clients_ fd L1.1)
  have hs : setbuf L1.2.1 fd L1.1 =
      { L1.2.1 with clients_ := StdMap.assign fdLt L1.2.1.clients_ fd L1.1 } := rfl
  rw [hs, h]
  simp only [setbuf, StdMap.assign_assign, (process_commands_loop_frame _ L1.2.1 []).1]

/-- A receive event of non-empty NUL-free pieces acts like `feed` on their
concatenation. -/
theorem recv_data_eventScript (s : Server) (fd : Int) (pieces : List Str)
    (h : ∀ p ∈ pieces, Piece p) :
    recv_data s fd (eventScript pieces) = .ok (feed s fd pieces.flatten) := by
  induction pieces generalizing s with
  | nil => simp [eventScript, recv_data, feed_nil]
  | cons p ps ih =>
    have hp := h p (List.mem_cons_self _ _)
    have hlen : 0 < p.length := List.length_pos.2 hp.1
    show recv_data s fd (RecvResult.bytes p :: eventScript ps) = _
    rw [recv_data, if_pos hlen, ih _ (fun q hq => h q (List.mem_cons_of_mem _ hq)),
      feed_recv_append s fd p _ hp.2]
    rfl

theorem recv_events_eventScript (s : Server) (fd : Int) (chunks : List (List Str))
    (hne : chunks ≠ []) (h : ∀ ch ∈ chunks, ∀ p ∈ ch, Piece p) :
    recv_events s fd (chunks.map eventScript) = .ok (feed s fd chunks.flatten.flatten) := by
  induction chunks generalizing s with
  | nil => exact absurd rfl hne
  | cons ch rest ih =>
    have h1 := recv_data_eventScript s fd ch (h ch (List.mem_cons_self _ _))
    cases rest with
    | nil =>
      simp only [List.map_cons, List.map_nil, recv_events, h1]
      simp
    | cons ch2 rest2 =>
      have h2 := ih (feed s fd ch.flatten).1 (by simp)
        (fun c hc => h c (List.mem_cons_of_mem _ hc))
      have e : (ch :: ch2 :: rest2).flatten.flatten =
          ch.flatten ++ (ch2 :: rest2).flatten.flatten := by
        rw [List.flatten_cons, List.flatten_append]
      rw [e, feed_append]
      generalize (ch2 :: rest2).flatten.flatten = more at h2 ⊢
      rw [List.map_cons, recv_events, h1]
      simp only [h2]

/-! ## Lemmas: lines of a buffer, closed peer -/

theorem process_commands_loop_lines (lines : List Str) (rest : Str) (s : Server)
    (sent : List Str) (h : ∀ l ∈ lines, '\n' ∉ l) (hr : '\n' ∉ rest) :
    process_commands_loop ((lines.map (fun l => l ++ ['\n'])).flatten ++ rest) s sent =
      (rest, (run_lines s lines).1, sent ++ (run_lines s lines).2) := by
  induction lines generalizing s sent with
  | nil =>
    simp only [List.map_nil, List.flatten_nil, List.nil_append, run_lines, List.append_nil]
    exact process_commands_loop_of_none s sent (find_newline_of_not_mem hr)
  | cons l ls ih =>
    have e : ((l :: ls).map (fun l => l ++ ['\n'])).flatten ++ rest =
        l ++ '\n' :: ((ls.map (fun l => l ++ ['\n'])).flatten ++ rest) := by simp
    rw [e, process_commands_loop_line _ _ s sent (h l (List.mem_cons_self _ _)),
      ih _ _ (fun x hx => h x (List.mem_cons_of_mem _ hx))]
    simp [run_lines]

theorem recv_append_frame (s : Server) (fd : Int) (data : Str) :
    (recv_append s fd data).database_ = s.database_ ∧
      (recv_append s fd data).epoll_ = s.epoll_ := ⟨rfl, rfl⟩

theorem handle_disconnection_ok (s : Server) (fd : Int) (h : fd ∈ s.epoll_) :
    handle_disconnection s fd =
      .ok ⟨StdMap.erase s.clients_ fd, s.database_, s.epoll_.erase fd⟩ := by
  simp [handle_disconnection, unregister_epoll, h]

theorem recv_data_closed (s : Server) (fd : Int) (pieces : List Str) (later : List RecvResult)
    (h : fd ∈ s.epoll_) :
    ∃ s1, recv_data s fd (pieces.map RecvResult.bytes ++ RecvResult.bytes [] :: later) =
        .ok (s1, []) ∧
      s1.database_ = s.database_ ∧ StdMap.find s1.clients_ fd = none := by
  induction pieces generalizing s with
  | nil =>
    refine ⟨⟨StdMap.erase s.clients_ fd, s.database_, s.epoll_.erase fd⟩, ?_, rfl,
      StdMap.find_erase_self _ _⟩
    simp [recv_data, handle_disconnection_ok s fd h, Except.map]
  | cons p ps ih =>
    by_cases hp : 0 < p.length
    · obtain ⟨s1, h1, h2, h3⟩ := ih (recv_append s fd p) h
      refine ⟨s1, ?_, h2, h3⟩
      rw [List.map_cons, List.cons_append, recv_data, if_pos hp]
      exact h1
    · refine ⟨⟨StdMap.erase s.clients_ fd, s.database_, s.epoll_.erase fd⟩, ?_, rfl,
        StdMap.find_erase_self _ _⟩
      rw [List.map_cons, List.cons_append, recv_data, if_neg hp,
        handle_disconnection_ok s fd h]
      rfl

/-! ## Claims -/

/-- C1. `process_command` follows the command table.  When the line's
whitespace-separated tokens are `[POST, k, v]` the response is `0` and the
store then maps `k` to `v`, every other key as before; when they are
`[GET, k]` the response is `0 v` if the store maps `k` to `v` and `1` if `k`
is absent, the server unchanged; when they are `[DELETE, k]` the response is
`0` if `k` was present and `1` if not, and then `k` is absent, every other key
as before. -/
theorem C1_process_command_table (s : Server) (line k v : Str) :
    (whitespaceTokens line = ["POST".toList, k, v] →
      (process_command s line).1 = "0\n".toList ∧
      StdMap.find (process_command s line).2.database_ k = some v ∧
      ∀ k2, k2 ≠ k →
        StdMap.find (process_command s line).2.database_ k2 = StdMap.find s.database_ k2) ∧
    (whitespaceTokens line = ["GET".toList, k] →
      (StdMap.find s.database_ k = some v →
        process_command s line = ("0 ".toList ++ v ++ "\n".toList, s)) ∧
      (StdMap.find s.database_ k = none → process_command s line = ("1\n".toList, s))) ∧
    (whitespaceTokens line = ["DELETE".toList, k] →
      ((StdMap.find s.database_ k).isSome = true → (process_command s line).1 = "0\n".toList) ∧
      (StdMap.find s.database_ k = none → (process_command s line).1 = "1\n".toList) ∧
      StdMap.find (process_command s line).2.database_ k = none ∧
      ∀ k2, k2 ≠ k →
        StdMap.find (process_command s line).2.database_ k2 = StdMap.find s.database_ k2) := by
  refine ⟨fun h => ?_, fun h => ?_, fun h => ?_⟩
  · rw [process_command_post s h]
    exact ⟨rfl, StdMap.find_assign_self _ _ _ _, fun k2 hk => StdMap.find_assign_ne _ _ _ hk⟩
  · exact ⟨fun hv => process_command_get_some s h hv, fun hv => process_command_get_none s h hv⟩
  · rw [process_command_delete s h]
    refine ⟨fun hv => ?_, fun hv => ?_, StdMap.find_erase_self _ _,
      fun k2 hk => StdMap.find_erase_ne _ hk⟩
    · have : StdMap.find s.database_ k ≠ none := by
        intro e; rw [e] at hv; cases hv
      simp [this]
    · simp [hv]

/-- C1 at the store `a ↦ 1`: `POST b 2`, `GET a` and `DELETE a`. -/
theorem C1_process_command_table_witness :
    ((process_command ⟨[], [("a".toList, "1".toList)], []⟩ "POST b 2".toList).1 = "0\n".toList ∧
      StdMap.find (process_command ⟨[], [("a".toList, "1".toList)], []⟩
        "POST b 2".toList).2.database_ "b".toList = some "2".toList) ∧
    process_command ⟨[], [("a".toList, "1".toList)], []⟩ "GET a".toList =
      ("0 1\n".toList, ⟨[], [("a".toList, "1".toList)], []⟩) ∧
    (process_command ⟨[], [("a".toList, "1".toList)], []⟩ " DELETE\ta ".toList).1 =
      "0\n".toList := by
  refine ⟨?_, ?_, ?_⟩
  · have h := (C1_process_command_table ⟨[], [("a".toList, "1".toList)], []⟩
      "POST b 2".toList "b".toList "2".toList).1 (by decide)
    exact ⟨h.1, h.2.1⟩
  · exact ((C1_process_command_table ⟨[], [("a".toList, "1".toList)], []⟩
      "GET a".toList "a".toList "1".toList).2.1 (by decide)).1 (by decide)
  · exact ((C1_process_command_table ⟨[], [("a".toList, "1".toList)], []⟩
      " DELETE\ta ".toList "a".toList "1".toList).2.2 (by decide)).1 (by decide)

/-- C2. `process_command` answers `2` exactly when the line's
whitespace-separated tokens have none of the shapes `[POST, _, _]`,
`[GET, _]`, `[DELETE, _]` (the empty token list included); in that case the
server is unchanged, so any following command is answered as it would have
been without the malformed line. -/
theorem C2_malformed_iff_status_2 (s : Server) (line : Str) :
    ((process_command s line).1 = "2\n".toList ↔ Malformed (whitespaceTokens line)) ∧
    (Malformed (whitespaceTokens line) →
      (process_command s line).2 = s ∧
      ∀ next, process_command (process_command s line).2 next = process_command s next) := by
  refine ⟨⟨fun h => ?_, fun h => ?_⟩, fun h => ?_⟩
  · by_contra hm
    exact process_command_wellformed s hm h
  · rw [process_command_malformed s h]
  · rw [process_command_malformed s h]
    exact ⟨rfl, fun _ => rfl⟩

/-- C2 at the four malformed lines of the spec (the empty line,
`POST onlykey`, `GET`, `FOO a b`) on the store `a ↦ 1`: each is answered `2`
and leaves the server as it was. -/
theorem C2_malformed_iff_status_2_witness :
    process_command ⟨[], [("a".toList, "1".toList)], []⟩ [] =
      ("2\n".toList, ⟨[], [("a".toList, "1".toList)], []⟩) ∧
    process_command ⟨[], [("a".toList, "1".toList)], []⟩ "POST onlykey".toList =
      ("2\n".toList, ⟨[], [("a".toList, "1".toList)], []⟩) ∧
    process_command ⟨[], [("a".toList, "1".toList)], []⟩ "GET".toList =
      ("2\n".toList, ⟨[], [("a".toList, "1".toList)], []⟩) ∧
    process_command ⟨[], [("a".toList, "1".toList)], []⟩ "FOO a b".toList =
      ("2\n".toList, ⟨[], [("a".toList, "1".toList)], []⟩) := by
  have key : ∀ line : Str, Malformed (whitespaceTokens line) →
      process_command ⟨[], [("a".toList, "1".toList)], []⟩ line =
        ("2\n".toList, ⟨[], [("a".toList, "1".toList)], []⟩) := fun line hm =>
    Prod.ext ((C2_malformed_iff_status_2 _ line).1.2 hm)
      ((C2_malformed_iff_status_2 _ line).2 hm).1
  refine ⟨key _ ?_, key _ ?_, key _ ?_, key _ ?_⟩
  · exact (malformed_iff _).2 trivial
  · have e : whitespaceTokens "POST onlykey".toList = ["POST".toList, "onlykey".toList] := by
      decide
    rw [e]
    exact (malformed_iff _).2
      (show "POST".toList ≠ "GET".toList ∧ "POST".toList ≠ "DELETE".toList by decide)
  · have e : whitespaceTokens "GET".toList = ["GET".toList] := by decide
    rw [e]
    exact (malformed_iff _).2 trivial
  · have e : whitespaceTokens "FOO a b".toList = ["FOO".toList, "a".toList, "b".toList] := by
      decide
    rw [e]
    exact (malformed_iff _).2 (show "FOO".toList ≠ "POST".toList by decide)

/-- C3. Snapshot round trip.  For a store with keys in `std::map` order whose
keys and values are non-empty and free of whitespace, `save_database` writes
one line `key value` per entry, and `load_database` of that text into the
empty store of a fresh server gives back exactly that store.  So after
`POST k v`, a shutdown that saves and a restart that loads, `GET k` is
answered `0 v`. -/
theorem C3_snapshot_round_trip (s : Server) (hs : StdMap.Sorted strLt s.database_)
    (hc : CleanDb s.database_) :
    (∃ text, save_database s true = .ok text ∧
      text = (s.database_.map (fun e => e.1 ++ " ".toList ++ e.2 ++ "\n".toList)).flatten ∧
      (load_database Server.init (some text)).database_ = s.database_) ∧
    ∀ post get k v, whitespaceTokens post = ["POST".toList, k, v] →
      whitespaceTokens get = ["GET".toList, k] →
      ∃ text, save_database (process_command s post).2 true = .ok text ∧
        (process_command (load_database Server.init (some text)) get).1 =
          "0 ".toList ++ v ++ "\n".toList := by
  refine ⟨⟨_, save_database_eq s, rfl, ?_⟩, fun post get k v hp hg => ?_⟩
  · rw [load_snapshot s hs hc]
  · refine ⟨_, save_database_eq _, ?_⟩
    rw [load_snapshot _ (sorted_process_command hs post) (cleanDb_process_command hc post)]
    have hfind : StdMap.find (process_command s post).2.database_ k = some v := by
      rw [process_command_post s hp]
      exact StdMap.find_assign_self _ _ _ _
    rw [process_command_get_some { Server.init with
      database_ := (process_command s post).2.database_ } hg hfind]

/-- C3 at the store `a ↦ 1, b ↦ 2`, with `POST c 3` and `GET c`. -/
theorem C3_snapshot_round_trip_witness :
    (∃ text, save_database ⟨[], [("a".toList, "1".toList), ("b".toList, "2".toList)], []⟩ true =
        .ok text ∧
      text = "a 1\nb 2\n".toList ∧
      (load_database Server.init (some text)).database_ =
        [("a".toList, "1".toList), ("b".toList, "2".toList)]) ∧
    ∃ text,
      save_database (process_command
        ⟨[], [("a".toList, "1".toList), ("b".toList, "2".toList)], []⟩ "POST c 3".toList).2 true =
        .ok text ∧
      (process_command (load_database Server.init (some text)) "GET c".toList).1 =
        "0 3\n".toList := by
  have h := C3_snapshot_round_trip
    ⟨[], [("a".toList, "1".toList), ("b".toList, "2".toList)], []⟩ (by decide) (by decide)
  refine ⟨?_, h.2 "POST c 3".toList "GET c".toList "c".toList "3".toList (by decide) (by decide)⟩
  obtain ⟨text, h1, h2, h3⟩ := h.1
  exact ⟨text, h1, h2, h3⟩

/-- C4 as stated fails: the line `a b c` has three fields, yet `load_database`
stores `a ↦ b` for it. -/
theorem C4_three_fields_loaded :
    whitespaceTokens "a b c".toList = ["a".toList, "b".toList, "c".toList] ∧
    load_database_line [] "a b c".toList = [("a".toList, "b".toList)] ∧
    (load_database Server.init (some "a b c\n".toList)).database_ =
      [("a".toList, "b".toList)] ∧
    ¬ ∀ (db : Database) (line : Str),
      (whitespaceTokens line).length ≠ 2 → load_database_line db line = db := by
  have h1 : whitespaceTokens "a b c".toList = ["a".toList, "b".toList, "c".toList] := by decide
  have h2 : load_database_line [] "a b c".toList = [("a".toList, "b".toList)] := by decide
  refine ⟨h1, h2, ?_, fun h => ?_⟩
  · simp only [load_database, Server.init]
    rw [load_database_loop_eq]
    have : fileLines "a b c\n".toList = ["a b c".toList] := by decide
    rw [this]
    exact h2
  · have := h [] "a b c".toList (by rw [h1]; decide)
    rw [h2] at this
    cases this

/-- C4, amended. For every line of a snapshot file, `load_database` stores an
entry if and only if the line has at least two whitespace-separated fields:
the first field is the key, the second the value, and further fields are
ignored.  A line with fewer than two fields leaves the store unchanged. -/
theorem C4_load_line_at_least_two_fields (db : Database) (line : Str) :
    (∀ k v more, whitespaceTokens line = k :: v :: more →
      load_database_line db line = StdMap.assign strLt db k v) ∧
    ((whitespaceTokens line).length < 2 → load_database_line db line = db) ∧
    (∀ k v, extract_key_value line = some (k, v) ↔
      ∃ more, whitespaceTokens line = k :: v :: more) := by
  refine ⟨fun k v more h => ?_, fun h => ?_, fun k v => extract_key_value_eq_some_iff line k v⟩
  · exact load_database_line_of_some ((extract_key_value_eq_some_iff line k v).2 ⟨more, h⟩)
  · exact load_database_line_of_none ((extract_key_value_eq_none_iff line).2 h)

/-- C4 amended, at the line `k v w` (three fields) and the line ` x ` (one field). -/
theorem C4_load_line_at_least_two_fields_witness :
    load_database_line [] "k v w".toList = StdMap.assign strLt [] "k".toList "v".toList ∧
    load_database_line [("k".toList, "v".toList)] " x ".toList = [("k".toList, "v".toList)] :=
  ⟨(C4_load_line_at_least_two_fields [] "k v w".toList).1 "k".toList "v".toList ["w".toList]
      (by decide),
    (C4_load_line_at_least_two_fields [("k".toList, "v".toList)] " x ".toList).2.1 (by decide)⟩

/-- C8. Load last-wins.  When the last line of the snapshot text that
`load_database` loads with key `k` carries the value `v`, the store after
loading maps `k` to `v`, and `GET k` is answered `0 v`. -/
theorem C8_load_last_wins (s : Server) (text k v : Str)
    (h : (((fileLines text).filterMap extract_key_value).filter
      (fun e => e.1 = k)).getLast? = some (k, v)) :
    StdMap.find (load_database s (some text)).database_ k = some v ∧
    ∀ line, whitespaceTokens line = ["GET".toList, k] →
      (process_command (load_database s (some text)) line).1 =
        "0 ".toList ++ v ++ "\n".toList := by
  have hfind : StdMap.find (load_database s (some text)).database_ k = some v := by
    simp only [load_database]
    rw [load_database_loop_eq, foldl_load_database_line, StdMap.find_foldl_assign, h]
  exact ⟨hfind, fun line hl => by rw [process_command_get_some _ hl hfind]⟩

/-- C8 at the text `a 1`, `b 2`, `a 3` loaded into the empty store. -/
theorem C8_load_last_wins_witness :
    StdMap.find (load_database Server.init (some "a 1\nb 2\na 3\n".toList)).database_
      "a".toList = some "3".toList ∧
    (process_command (load_database Server.init (some "a 1\nb 2\na 3\n".toList))
      "GET a".toList).1 = "0 3\n".toList := by
  have h := C8_load_last_wins Server.init "a 1\nb 2\na 3\n".toList "a".toList "3".toList
    (by decide)
  exact ⟨h.1, h.2 "GET a".toList (by decide)⟩

/-- C9. Store invariant.  Starting from the empty store, after `load_database`
on any file and any sequence of `process_command` calls, every key and every
value of the store is a non-empty string without whitespace; a `GET` or
`DELETE` of an absent key leaves the store as it is. -/
theorem C9_store_invariant (file : Option Str) (lines : List Str) :
    CleanDb (lines.foldl (fun s l => (process_command s l).2)
      (load_database Server.init file)).database_ ∧
    ∀ (s : Server) (line k : Str), StdMap.find s.database_ k = none →
      (whitespaceTokens line = ["GET".toList, k] ∨ whitespaceTokens line = ["DELETE".toList, k]) →
      (process_command s line).2 = s := by
  constructor
  · have h0 : CleanDb (load_database Server.init file).database_ :=
      cleanDb_load_database (by intro e he; cases he) file
    generalize load_database Server.init file = s at h0
    induction lines generalizing s with
    | nil => exact h0
    | cons l ls ih => exact ih _ (cleanDb_process_command h0 l)
  · intro s line k hk hl
    rcases hl with hl | hl
    · rw [process_command_get_none s hl hk]
    · rw [process_command_delete s hl, StdMap.erase_of_find_none _ _ hk]

/-- C9 at the file `a 1`, `b  2 x`, `c`, followed by `POST d 4`, `GET zz` and
`DELETE a`. -/
theorem C9_store_invariant_witness :
    CleanDb ((["POST d 4".toList, "GET zz".toList, "DELETE a".toList]).foldl
      (fun s l => (process_command s l).2)
      (load_database Server.init (some "a 1\nb  2 x\nc\n".toList))).database_ ∧
    (process_command ⟨[], [("a".toList, "1".toList)], []⟩ "GET zz".toList).2 =
      ⟨[], [("a".toList, "1".toList)], []⟩ :=
  ⟨(C9_store_invariant (some "a 1\nb  2 x\nc\n".toList)
      ["POST d 4".toList, "GET zz".toList, "DELETE a".toList]).1,
    (C9_store_invariant none []).2 ⟨[], [("a".toList, "1".toList)], []⟩ "GET zz".toList
      "zz".toList (by decide) (Or.inl (by decide))⟩

/-- C5. Split-write reconstruction.  Let a stream without NUL bytes reach one
connection in one or more receive events, each event a run of non-empty `recv`
results followed by `EAGAIN`.  Then the responses sent, the store and the
inbound buffer at the end are those of a single receive event that delivers
the same stream, whatever the initial server. -/
theorem C5_split_write_reconstruction (s : Server) (fd : Int) (chunks : List (List Str))
    (whole : List Str) (hne : chunks ≠ []) (hch : ∀ ch ∈ chunks, ∀ p ∈ ch, Piece p)
    (hw : ∀ p ∈ whole, Piece p) (hsame : chunks.flatten.flatten = whole.flatten) :
    recv_events s fd (chunks.map eventScript) = recv_data s fd (eventScript whole) ∧
    recv_data s fd (eventScript whole) = .ok (feed s fd whole.flatten) := by
  rw [recv_events_eventScript s fd chunks hne hch, recv_data_eventScript s fd whole hw, hsame]
  exact ⟨rfl, rfl⟩

/-- C5 at `POST a 1`, `GET a` sent byte by byte, one byte per receive event:
the same outcome as the whole text in one event. -/
theorem C5_split_write_reconstruction_witness :
    recv_events ⟨[(4, [])], [], [4]⟩ 4
      (("POST a 1
GET a
".toList.map (fun c => [[c]])).map eventScript) =
      recv_data ⟨[(4, [])], [], [4]⟩ 4 (eventScript ["POST a 1
GET a
".toList]) :=
  (C5_split_write_reconstruction ⟨[(4, [])], [], [4]⟩ 4
    ("POST a 1
GET a
".toList.map (fun c => [[c]])) ["POST a 1
GET a
".toList]
    (by decide) (by decide) (by decide) (by decide)).1

/-- The text `POST a 1`, `GET a` in one receive event is answered `0`, then
`0 1`. -/
theorem recv_data_post_get :
    recv_data ⟨[(4, [])], [], [4]⟩ 4 (eventScript ["POST a 1
GET a
".toList]) =
      .ok (⟨[(4, [])], [("a".toList, "1".toList)], [4]⟩, ["0
".toList, "0 1
".toList]) := by
  rw [recv_data_eventScript _ _ _ (by decide), feed_eq]
  have hb : inbuf ⟨[(4, [])], [], [4]⟩ 4 ++ ["POST a 1
GET a
".toList].flatten =
      (["POST a 1".toList, "GET a".toList].map (fun l => l ++ ['
'])).flatten ++ [] := by
    decide
  rw [hb, process_commands_loop_lines _ _ _ _ (by decide) (by decide)]
  simp only [run_lines]
  rw [process_command_post _ (by decide : whitespaceTokens "POST a 1".toList =
    ["POST".toList, "a".toList, "1".toList])]
  rw [@process_command_get_some _ "GET a".toList "a".toList "1".toList (by decide) (by decide)]
  rfl

/-- C6 fails on the code: `clients_[fd] += buff` appends a C string, so the
bytes from the first NUL on are dropped.  With `x` buffered and the four bytes
`a`, NUL, `b`, newline received, the buffer becomes `xa`. -/
theorem C6_recv_append_stops_at_nul :
    recv_append ⟨[(4, "x".toList)], [], [4]⟩ 4 ['a', Char.ofNat 0, 'b', '
'] =
      ⟨[(4, "xa".toList)], [], [4]⟩ ∧
    ¬ ∀ (s : Server) (fd : Int) (data : Str), 1 ≤ data.length → data.length ≤ 1023 →
      inbuf (recv_append s fd data) fd = inbuf s fd ++ data := by
  refine ⟨by decide, fun h => ?_⟩
  have := h ⟨[(4, "x".toList)], [], [4]⟩ 4 ['a', Char.ofNat 0, 'b', '
'] (by decide) (by decide)
  revert this
  decide

/-- C7. Framer invariant.  `process_commands` is a total function.  The buffer
of `fd` it is given splits in one way into newline-terminated lines and a rest
without newline; `process_commands` hands these lines, without their newline
and in order, to `process_command`, sends the responses in that order, and
leaves the rest as the buffer of `fd`. -/
theorem C7_framer_invariant (s : Server) (fd : Int) :
    ∃ lines rest, inbuf s fd = (lines.map (fun l => l ++ ['
'])).flatten ++ rest ∧
      (∀ l ∈ lines, '
' ∉ l) ∧ '
' ∉ rest ∧
      process_commands s fd = (setbuf (run_lines s lines).1 fd rest, (run_lines s lines).2) ∧
      inbuf (process_commands s fd).1 fd = rest ∧
      '
' ∉ inbuf (process_commands s fd).1 fd := by
  obtain ⟨lines, rest, h1, h2, h3, h4⟩ := process_commands_loop_spec (inbuf s fd) s []
  have h5 : process_commands s fd =
      (setbuf (run_lines s lines).1 fd rest, (run_lines s lines).2) := by
    rw [process_commands_eq, h4]
    rfl
  refine ⟨lines, rest, h1, h2, h3, h5, ?_, ?_⟩
  · rw [h5, inbuf_setbuf]
  · rw [h5, inbuf_setbuf]; exact h3

/-- C10. When `recv` yields data and then 0 within one receive event,
`recv_data` drops the connection and returns without `process_commands`: no
response is sent, the store is as before, and `fd` has left the connection
table.  (`fd` is registered with epoll, as every connection is.) -/
theorem C10_close_discards_pending_lines (s : Server) (fd : Int) (pieces : List Str)
    (later : List RecvResult) (h : fd ∈ s.epoll_) :
    ∃ s1, recv_data s fd (pieces.map RecvResult.bytes ++ RecvResult.bytes [] :: later) =
        .ok (s1, []) ∧
      s1.database_ = s.database_ ∧ StdMap.find s1.clients_ fd = none :=
  recv_data_closed s fd pieces later h

/-- C10 at `POST a 1` followed by the close of the peer. -/
theorem C10_close_discards_pending_lines_witness :
    ∃ s1, recv_data ⟨[(4, [])], [], [4]⟩ 4
        (["POST a 1
".toList].map RecvResult.bytes ++ RecvResult.bytes [] :: []) =
        .ok (s1, []) ∧
      s1.database_ = [] ∧ StdMap.find s1.clients_ 4 = none :=
  C10_close_discards_pending_lines ⟨[(4, [])], [], [4]⟩ 4 ["POST a 1
".toList] [] (by decide)

end MiniDb
